import Mathlib

/-!
Verification development for the layercparse analysis engine.

The definitions below are a shallow embedding of the Python sources:
  - src/layercparse/macro.py   (tokenizer grammar re_token_preproc, is_wellformed,
                                MacroParts, Macros.expand and its helpers)
  - src/layercparse/codebase.py (Definition, Definition.update, _dict_upsert_def,
                                Codebase.untypedef)
  - src/semanticc/ctoken.py    (TokenList.xFromText)
  - src/semanticc/common.py    (clean_text_sz)
  - src/semanticc/function.py  (FunctionParts.update)

Text is modelled as `List Char`; regex scanning is modelled as deterministic
recursive descent, which is faithful because the source patterns use atomic
groups and possessive quantifiers throughout (and recursive subroutine calls
are atomic in the `regex` module), so no backtracking can change a match.
Recursion is fuel-indexed; every loop consumes at least one character per
fuel unit, and the fuel supplied by each wrapper exceeds any possible
recursion depth for its input, so the fuel never truncates a computation.
-/

namespace Lcp

/-- Double-quote character (written via its code point). -/
def dqChar : Char := Char.ofNat 34

/-- Single-quote character (written via its code point). -/
def sqChar : Char := Char.ofNat 39

/-- Python regex `\w` on ASCII input (identifier/number characters). -/
def isWordChar (c : Char) : Bool := c.isAlphanum || c = '_'

/-- The character class `[\r\t ]` of the whitespace-run token alternative. -/
def isHSpaceChar (c : Char) : Bool := c = ' ' || c = '\t' || c = '\r'

/-- Python regex `\s` (also the class stripped by `str.strip()`). -/
def isPySpace (c : Char) : Bool :=
  c = ' ' || c = '\t' || c = '\n' || c = '\r' || c = Char.ofNat 11 || c = Char.ofNat 12

/-- Body loop of a line comment or preprocessor directive token:
`(?: [^\\\n] | \\. )*+` with DOTALL.  Returns the number of characters
consumed; stops before a newline, before a trailing lone backslash, or at
the end of input. -/
def lineBodyLen : List Char → Nat
  | [] => 0
  | '\\' :: [] => 0
  | '\\' :: _ :: t2 => 2 + lineBodyLen t2
  | '\n' :: _ => 0
  | _ :: t => 1 + lineBodyLen t

/-- Body loop of a block comment: `(?: [^*] | \*[^\/] )*+`. -/
def blockBodyLen : List Char → Nat
  | [] => 0
  | '*' :: [] => 0
  | '*' :: c :: t2 => if c = '/' then 0 else 2 + blockBodyLen t2
  | _ :: t => 1 + blockBodyLen t

/-- Body loop of a string or character literal: `(?> [^\\q] | \\. )*` for
quote character `q`. -/
def strBodyLen (q : Char) : List Char → Nat
  | [] => 0
  | '\\' :: [] => 0
  | '\\' :: _ :: t2 => 2 + strBodyLen q t2
  | c :: t => if c = q then 0 else 1 + strBodyLen q t

/-- Token alternative `(?> \/\/ (?: [^\\\n] | \\. )*+ \n)`. -/
def lineCommentLen (s : List Char) : Option Nat :=
  match s with
  | '/' :: '/' :: t =>
    match (t.drop (lineBodyLen t)).head? with
    | some c => if c = '\n' then some (2 + lineBodyLen t + 1) else none
    | none => none
  | _ => none

/-- Preprocessor-directive token `(?> \# (?: [^\\\n] | \\. )*+ \n)` of the
plain tokenizer `re_token`.  `re_token` itself is in the package's
`internal` module, which is not among the provided sources; per the comment
in macro.py ("The difference from re_token is that # and ## are operators
rather than preprocessor directives") it is `re_token_preproc` with this
directive alternative in place of the `#`/`##` operators. -/
def directiveLen (s : List Char) : Option Nat :=
  match s with
  | '#' :: t =>
    match (t.drop (lineBodyLen t)).head? with
    | some c => if c = '\n' then some (1 + lineBodyLen t + 1) else none
    | none => none
  | _ => none

/-- Token alternative `(?> \/\* (?: [^*] | \*[^\/] )*+ \*\/ )`. -/
def blockCommentLen (s : List Char) : Option Nat :=
  match s with
  | '/' :: '*' :: t =>
    match t.drop (blockBodyLen t) with
    | '*' :: '/' :: _ => some (2 + blockBodyLen t + 2)
    | _ => none
  | _ => none

/-- Token alternative for a double-quoted string literal. -/
def strLitLen (s : List Char) : Option Nat :=
  match s with
  | c :: t =>
    if c = dqChar then
      match (t.drop (strBodyLen dqChar t)).head? with
      | some d => if d = dqChar then some (1 + strBodyLen dqChar t + 1) else none
      | none => none
    else none
  | [] => none

/-- Token alternative for a single-quoted character literal. -/
def charLitLen (s : List Char) : Option Nat :=
  match s with
  | c :: t =>
    if c = sqChar then
      match (t.drop (strBodyLen sqChar t)).head? with
      | some d => if d = sqChar then some (1 + strBodyLen sqChar t + 1) else none
      | none => none
    else none
  | [] => none

/-- Operator/punctuation alternatives of `re_token_preproc`, in source
order (the alternation is atomic, so the first listed match wins). -/
def opStringsPre : List String :=
  [",", ";", "?", ":",
   "!", "~",
   "<<=", ">>=",
   "##", "++", "--", "->", "++", "--", "<<", ">>", "<=", ">=", "==", "!=",
   "&&", "||", "+=", "-=", "*=", "/=", "%=", "&=", "^=", "|=",
   "#", ".", "+", "-", "*", "&", "/", "%", "+", "-", "<", ">",
   "&", "^", "|", "=",
   "@"]

/-- Operator list of the tokenizer: the preprocessor variant has `#` and
`##` as operators, the plain variant does not (they belong to the
directive alternative instead). -/
def opStrings (pp : Bool) : List String :=
  if pp then opStringsPre else opStringsPre.filter (fun op => op != "#" && op != "##")

/-- First operator (in source order) that is a prefix of the input. -/
def opLen (pp : Bool) (s : List Char) : Option Nat :=
  ((opStrings pp).find? (fun op => op.toList.isPrefixOf s)).map String.length

/-- Maximal run promised by `[\r\t ]++`. -/
def hspaceRunLen (s : List Char) : Option Nat :=
  if (s.takeWhile isHSpaceChar).length = 0 then none else some (s.takeWhile isHSpaceChar).length

/-- Maximal run promised by `\w++`. -/
def wordRunLen (s : List Char) : Option Nat :=
  if (s.takeWhile isWordChar).length = 0 then none else some (s.takeWhile isWordChar).length

/-- Token alternative `(?>\\.)` (line continuation and similar). -/
def backslashLen (s : List Char) : Option Nat :=
  match s with
  | '\\' :: _ :: _ => some 2
  | _ => none

/-- Opening bracket dispatch for the recursive group alternatives
`\{ (?&TOKEN)* \}`, `\( (?&TOKEN)* \)`, `\[ (?&TOKEN)* \]`. -/
def bracketClose (c : Char) : Option Char :=
  if c = '{' then some '}'
  else if c = '(' then some ')'
  else if c = '[' then some ']'
  else none

/-- One TOKEN of the tokenizer grammar, as a consumed length, parameterized
by the star scanner used inside bracket groups.  `pp = true` is
`re_token_preproc` (macro.py lines 15-38); `pp = false` is the plain
`re_token` variant.  Alternatives are tried in source order; all groups
are atomic, so the scan is deterministic. -/
def tokAlts (pp : Bool) (star : List Char → Nat) (s : List Char) : Option Nat :=
  match lineCommentLen s with
  | some n => some n
  | none =>
  match (if pp then none else directiveLen s) with
  | some n => some n
  | none =>
  match blockCommentLen s with
  | some n => some n
  | none =>
  match strLitLen s with
  | some n => some n
  | none =>
  match charLitLen s with
  | some n => some n
  | none =>
  match s with
  | [] => none
  | c :: t =>
    match bracketClose c with
    | some close =>
      match (t.drop (star t)).head? with
      | some d => if d = close then some (1 + star t + 1) else none
      | none => none
    | none =>
      if c = '\n' then some 1
      else
        match hspaceRunLen s with
        | some n => some n
        | none =>
        match backslashLen s with
        | some n => some n
        | none =>
        match opLen pp s with
        | some n => some n
        | none => wordRunLen s

mutual

/-- Fuel-indexed `(?&TOKEN)` call. -/
def tokLenF (pp : Bool) : Nat → List Char → Option Nat
  | 0, _ => none
  | f + 1, s => tokAlts pp (starLenF pp f) s

/-- Greedy `(?&TOKEN)*` inside a bracket group: total consumed length. -/
def starLenF (pp : Bool) : Nat → List Char → Nat
  | 0, _ => 0
  | f + 1, s =>
    match tokLenF pp f s with
    | some n => if n = 0 then 0 else n + starLenF pp f (s.drop n)
    | none => 0

end

/-- Fuel that always suffices for `tokLenF`: every descent into a bracket
group strips at least one character and every star iteration consumes at
least one character, so the recursion depth is below `3 * length + 8`. -/
def tokFuel (s : List Char) : Nat := 3 * s.length + 8

/-- The token match attempted at one position (one `(?&TOKEN)` call). -/
def matchTokLen (pp : Bool) (s : List Char) : Option Nat := tokLenF pp (tokFuel s) s

/-- `finditer` over the token grammar: at each position either a token is
matched (and scanning resumes after it) or the position is skipped.
Produces `(start, stop, text)` triples, modelling `TokenList.xFromText`
(ctoken.py lines 22-27), which yields `Token(i, x.span(), x[0])`. -/
def scanF (pp : Bool) : Nat → Nat → List Char → List (Nat × Nat × String)
  | 0, _, _ => []
  | f + 1, pos, s =>
    if s.isEmpty then []
    else
      match matchTokLen pp s with
      | some n => (pos, pos + n, String.mk (s.take n)) :: scanF pp f (pos + n) (s.drop n)
      | none => scanF pp f (pos + 1) (s.drop 1)

/-- `TokenList.xFromText` (ctoken.py): token stream of the plain tokenizer. -/
def xFromText (txt : String) : List (Nat × Nat × String) :=
  scanF false (txt.toList.length + 1) 0 txt.toList

/-- Coverage loop of `is_wellformed` (macro.py lines 40-46): the text is
covered iff every position from the start is the start of a token match and
the matches end exactly at the end of the text. -/
def coverF (pp : Bool) : Nat → List Char → Bool
  | 0, s => s.isEmpty
  | f + 1, s =>
    if s.isEmpty then true
    else
      match matchTokLen pp s with
      | some n => coverF pp f (s.drop n)
      | none => false

/-- `is_wellformed` (macro.py lines 40-46): full contiguous coverage by the
preprocessor token grammar. -/
def is_wellformed (txt : String) : Bool := coverF true (txt.toList.length + 1) txt.toList

/-- The same coverage check for the plain tokenizer `re_token`. -/
def reTokenCovers (txt : String) : Bool := coverF false (txt.toList.length + 1) txt.toList

/-- The `(start, stop)` ranges chain exactly from `pos` to `stop0`, and each
range's width is its text's length. -/
def spansChain : Nat → List (Nat × Nat × String) → Nat → Bool
  | pos, [], stop0 => pos = stop0
  | pos, (a, b, v) :: rest, stop0 =>
    a = pos && b = a + v.toList.length && spansChain b rest stop0

/-- Concatenation of the token texts. -/
def catVals : List (Nat × Nat × String) → List Char
  | [] => []
  | (_, _, v) :: rest => v.toList ++ catVals rest

/-- The claim C1 predicate: the tokens' byte ranges exactly partition the
input text (in order, adjacent, from 0 to the length) and their texts
concatenate back to the input. -/
def tokensPartitionText (toks : List (Nat × Nat × String)) (txt : String) : Prop :=
  spansChain 0 toks txt.toList.length = true ∧ catVals toks = txt.toList

/-! The macro registry and expansion engine (macro.py lines 107-242). -/

/-- `MacroParts` (macro.py lines 48-62), restricted to the fields the
expander reads: `args is None` marks an object-like macro, the name tokens
of `args` are kept as strings, `body` is the body token's text (`None`
models a missing body token), and `is_wellformed` is the flag computed by
`__post_init__`. -/
structure MacroDef where
  args : Option (List String)
  is_va_args : Bool
  body : Option String
  is_wellformed : Bool
deriving DecidableEq

/-- The `Macros.macros` dict, as an association list keyed by macro name. -/
abbrev MacroTable := List (String × MacroDef)

/-- `obj_like_names` (macro.py line 145). -/
def objNames (m : MacroTable) : List String :=
  (m.filter (fun p => p.2.args.isNone)).map (fun p => p.1)

/-- `fn_like_names` (macro.py line 148). -/
def fnNames (m : MacroTable) : List String :=
  (m.filter (fun p => p.2.args.isSome)).map (fun p => p.1)

/-- The verbatim-skip alternatives of the expansion regex (macro.py lines
139-142): directives/line comments, block comments, string literals,
character literals. -/
def skipLen (s : List Char) : Option Nat :=
  match directiveLen s with
  | some n => some n
  | none =>
  match lineCommentLen s with
  | some n => some n
  | none =>
  match blockCommentLen s with
  | some n => some n
  | none =>
  match strLitLen s with
  | some n => some n
  | none => charLitLen s

/-- A `\b` word boundary holds before the current position. -/
def boundaryBefore : Option Char → Bool
  | none => true
  | some c => !isWordChar c

/-- The `(?P<args>(?P<spc>\s*+)\((?P<list>(?&TOKEN)*+)\))` group following a
function-like macro name (macro.py line 150); the TOKEN grammar here is the
plain `re_token`.  Returns the list text and the consumed length. -/
def fnArgsParse (t : List Char) : Option (List Char × Nat) :=
  let spc := (t.takeWhile isPySpace).length
  match (t.drop spc).head? with
  | some c =>
    if c = '(' then
      let u := t.drop (spc + 1)
      let n := starLenF false (3 * u.length + 8) u
      if (u.drop n).head? = some ')' then some (u.take n, spc + 1 + n + 1) else none
    else none
  | none => none

/-- What the expansion regex does at one position of the scanned text. -/
inductive ExStep where
  | copy (k : Nat)
  | obj (name : String)
  | func (name : String) (list : List Char) (matchLen : Nat)
deriving DecidableEq

/-- One position of the `_names_reg` scan (macro.py lines 138-152):
skip tokens are copied verbatim; at a word boundary a maximal word equal to
an object-like name is an object-like match, a word equal to a
function-like name followed by a parenthesized token list is a
function-like match; everything else is copied.  Because macro names are
`\w+` and must be followed by a word boundary, a name can only match a
maximal word, and positions strictly inside a word can match no
alternative, so copying a whole unmatched word is faithful to the
character-by-character advance of the regex engine. -/
def classifyAt (m : MacroTable) (prev : Option Char) (s : List Char) : ExStep :=
  match skipLen s with
  | some k => .copy k
  | none =>
    match s with
    | [] => .copy 1
    | c :: _ =>
      if isWordChar c then
        let w := s.takeWhile isWordChar
        let name := String.mk w
        if boundaryBefore prev then
          if (objNames m).contains name then .obj name
          else if (fnNames m).contains name then
            match fnArgsParse (s.drop w.length) with
            | some (lst, consumed) => .func name lst (w.length + consumed)
            | none => .copy w.length
          else .copy w.length
        else .copy w.length
      else .copy 1

/-- `TokenList.xFromText(match["list"])` (macro.py line 192), keeping only
the token texts. -/
def tokenValues (s : List Char) : List String :=
  (scanF false (s.length + 1) 0 s).map (fun t => t.2.2)

/-- `args_val[-1].append(token_arg)`. -/
def appendLast (acc : List (List String)) (tok : String) : List (List String) :=
  match acc with
  | [] => [[tok]]
  | [a] => [a ++ [tok]]
  | a :: rest => a :: appendLast rest tok

/-- The argument-splitting loop of `_expand_fn_like` (macro.py lines
191-203): a top-level comma opens a new argument while fewer than the
declared number have been seen; once the declared number is reached a
comma stops the parse unless the macro is variadic, in which case it is
appended to the last argument. -/
def splitArgsLoop (nparams : Nat) (is_va : Bool) : List String → List (List String) → List (List String)
  | [], acc => acc
  | tok :: rest, acc =>
    if tok = "," then
      if acc.length < nparams then splitArgsLoop nparams is_va rest (acc ++ [[]])
      else if is_va then splitArgsLoop nparams is_va rest (appendLast acc tok)
      else acc
    else splitArgsLoop nparams is_va rest (appendLast acc tok)

/-- Argument lists of one invocation, starting from `[TokenList([])]`. -/
def splitMacroArgs (nparams : Nat) (is_va : Bool) (toks : List String) : List (List String) :=
  splitArgsLoop nparams is_va toks [[]]

/-- Concatenation of a list of token texts. -/
def catStrings : List String → List Char
  | [] => []
  | v :: rest => v.toList ++ catStrings rest

/-- Python `str.strip()`. -/
def pyStrip (l : List Char) : List Char :=
  ((l.dropWhile isPySpace).reverse.dropWhile isPySpace).reverse

/-- The raw argument text `"".join(v.strings()).strip()` (macro.py line
211): the joined token texts, stripped. -/
def rawOf (toks : List String) : String := String.mk (pyStrip (catStrings toks))

/-- One character of `c_string_escape` (macro.py lines 107-108).  The
source chains `str.replace` calls for backslash, newline, tab and quote;
since the replacements introduced by the earlier calls are never hit by
the later ones, the chain equals this single character map. -/
def cEscapeChar (c : Char) : List Char :=
  if c = '\\' then ['\\', '\\']
  else if c = '\n' then ['\\', 'n']
  else if c = '\t' then ['\\', 't']
  else if c = dqChar then ['\\', dqChar]
  else [c]

/-- `c_string_escape` (macro.py lines 107-108). -/
def c_string_escape (s : String) : String :=
  String.mk (s.toList.foldr (fun c acc => cEscapeChar c ++ acc) [])

/-- Lookup in `args_dict` / `args_dict_expanded`. -/
def lookupS (l : List (String × String)) (k : String) : Option String := List.lookup k l

/-- `_arg_c_escape` (macro.py lines 226-227): a double-quoted C-escaped
literal of the raw argument, or `""` if the name is not a parameter. -/
def stringizeArg (raws : List (String × String)) (w : String) : List Char :=
  match lookupS raws w with
  | some r => dqChar :: ((c_string_escape r).toList ++ [dqChar])
  | none => [dqChar, dqChar]

/-- One operand of `_concat_hh` (macro.py lines 224-225): the raw argument
text for a parameter, the word itself otherwise. -/
def pasteOperandRaw (raws : List (String × String)) (w : String) : List Char :=
  match lookupS raws w with
  | some r => r.toList
  | none => w.toList

/-- `_concat_hh`: concatenation of the operand raw texts with no separator. -/
def concatRaw (raws : List (String × String)) (names : List String) : List Char :=
  names.foldr (fun nm acc => pasteOperandRaw raws nm ++ acc) []

/-- The `(?>\s*+(\#\#)\s*+(?P<n>\w++))++` tail of the token-paste
alternative: operand words after the head word, with the consumed length.
A failing iteration consumes nothing and ends the run. -/
def pasteRunAux : Nat → List Char → (List String × Nat)
  | 0, _ => ([], 0)
  | f + 1, s =>
    let a := (s.takeWhile isPySpace).length
    match s.drop a with
    | '#' :: '#' :: t =>
      let b := (t.takeWhile isPySpace).length
      let w := (t.drop b).takeWhile isWordChar
      if w.isEmpty then ([], 0)
      else
        match pasteRunAux f (t.drop (b + w.length)) with
        | (ws, c) => (String.mk w :: ws, a + 2 + b + w.length + c)
    | _ => ([], 0)

/-- The single substitution pass `reg_macro_subst.sub` over the macro body
(macro.py lines 218-233).  At each position, in alternation order: a
`#\s*word` stringize (raw text), a `word(##word)+` paste run (raw texts),
a bare parameter (expanded text); anything else is copied.  A word that
matches none of these can match no alternative at its inner positions
either, so it is copied whole. -/
def substB (raws exps : List (String × String)) : Nat → List Char → List Char
  | 0, s => s
  | _ + 1, [] => []
  | f + 1, c :: rest =>
    if c = '#' then
      let a := (rest.takeWhile isPySpace).length
      let w := (rest.drop a).takeWhile isWordChar
      if w.isEmpty then c :: substB raws exps f rest
      else stringizeArg raws (String.mk w) ++ substB raws exps f (rest.drop (a + w.length))
    else if isWordChar c then
      let w := (c :: rest).takeWhile isWordChar
      match pasteRunAux ((c :: rest).drop w.length).length ((c :: rest).drop w.length) with
      | ([], _) =>
        match lookupS raws (String.mk w) with
        | some _ =>
          (match lookupS exps (String.mk w) with
           | some e => e.toList
           | none => []) ++ substB raws exps f ((c :: rest).drop w.length)
        | none => w ++ substB raws exps f ((c :: rest).drop w.length)
      | (ops, consumed) =>
        concatRaw raws (String.mk w :: ops) ++
          substB raws exps f (((c :: rest).drop w.length).drop consumed)
    else c :: substB raws exps f rest

/-- Total length of the registered macro bodies. -/
def bodiesLen (m : MacroTable) : Nat :=
  m.foldr (fun p acc => (match p.2.body with | some b => b.length | none => 0) + acc) 0

/-- Fuel bound for the expander.  Along any chain of nested
`_expand_fragment` calls the recursion guard bounds body re-expansions by
the number of macros and every argument expansion is on strictly shorter
text, so the chain length stays below this (very generous) bound. -/
def expandFuel (m : MacroTable) (txt : String) : Nat :=
  (txt.length + bodiesLen m + 8) ^ (m.length + 2)

/-- The character preceding the rest of the scan after consuming a span;
word boundaries are judged against the original text. -/
def lastCharOf (consumed : List Char) (prev : Option Char) : Option Char :=
  match consumed.getLast? with
  | some c => some c
  | none => prev

/-- The arity error message of macro.py line 205. -/
def arityErr (name : String) (got expected : Nat) : String :=
  "error: macro " ++ name ++ ": got only " ++ toString got ++
    " arguments, expected " ++ toString expected

/-- `Macros._expand_fragment` together with the match handlers
`_expand_obj_like` and `_expand_fn_like` (macro.py lines 159-242):
returns the substituted text and the errors recorded, in order.
A name in `_in_use` is left untouched (the whole match for a
function-like invocation).  An object-like macro with a body has the body
recursively expanded under the guard.  A function-like invocation parses
its arguments; with fewer arguments than parameters the match is kept
verbatim and an arity error recorded; otherwise each argument is kept raw
and macro-expanded (the guard not yet extended), the single substitution
pass rewrites the body, and the result is re-expanded under the guard. -/
def expandF (m : MacroTable) : Nat → List String → Option Char → List Char → List Char × List String
  | 0, _, _, s => (s, [])
  | f + 1, inUse, prev, s =>
    match s with
    | [] => ([], [])
    | _ :: _ =>
      match classifyAt m prev s with
      | .copy k =>
        match expandF m f inUse (lastCharOf (s.take (max k 1)) prev) (s.drop (max k 1)) with
        | (out, errs) => (s.take (max k 1) ++ out, errs)
      | .obj name =>
        match expandF m f inUse (lastCharOf (s.take name.length) prev) (s.drop name.length) with
        | (out, errs) =>
          if inUse.contains name then (name.toList ++ out, errs)
          else
            match List.lookup name m with
            | none => (name.toList ++ out, errs)
            | some md =>
              match md.body with
              | none => (out, errs)
              | some b =>
                match expandF m f (name :: inUse) none b.toList with
                | (bo, be) => (bo ++ out, be ++ errs)
      | .func name lst mlen =>
        match expandF m f inUse (lastCharOf (s.take mlen) prev) (s.drop mlen) with
        | (out, errs) =>
          if inUse.contains name then (s.take mlen ++ out, errs)
          else
            match List.lookup name m with
            | none => (s.take mlen ++ out, errs)
            | some md =>
              match md.body with
              | none => (out, errs)
              | some b =>
                let margs := md.args.getD []
                let avals := splitMacroArgs margs.length md.is_va_args (tokenValues lst)
                if avals.length < margs.length then
                  (s.take mlen ++ out, arityErr name avals.length margs.length :: errs)
                else
                  let raws := (margs.zip avals).map (fun p => (p.1, rawOf p.2))
                  let expRes := raws.map (fun p => (p.1, expandF m f inUse none p.2.toList))
                  let exps := expRes.map (fun p => (p.1, String.mk p.2.1))
                  let argErrs := expRes.foldr (fun p acc => p.2.2 ++ acc) []
                  let replacement := if margs.isEmpty then b.toList
                                     else substB raws exps b.toList.length b.toList
                  match expandF m f (name :: inUse) none replacement with
                  | (ro, re) => (ro ++ out, argErrs ++ re ++ errs)

/-- `Macros.expand` (macro.py lines 132-157): identity on an empty
registry, otherwise a fragment expansion of the whole text with a fresh
recursion guard and a fresh error list. -/
def Macros.expand (m : MacroTable) (txt : String) : String × List String :=
  if m.isEmpty then (txt, [])
  else
    match expandF m (expandFuel m txt) [] none txt.toList with
    | (out, errs) => (String.mk out, errs)

/-! Concrete registries used by the macro-engine claims. -/

/-- Registry of `#define A A`. -/
def macroA : MacroTable := [("A", ⟨none, false, some "A", is_wellformed "A"⟩)]

/-- Registry of `#define ID(x) x` and `#define FOO 1`. -/
def macroID : MacroTable :=
  [("ID", ⟨some ["x"], false, some "x", is_wellformed "x"⟩),
   ("FOO", ⟨none, false, some "1", is_wellformed "1"⟩)]

/-- Registry of `#define P(x) #x` and `#define FOO 1`. -/
def macroP : MacroTable :=
  [("P", ⟨some ["x"], false, some "#x", is_wellformed "#x"⟩),
   ("FOO", ⟨none, false, some "1", is_wellformed "1"⟩)]

/-- Registry of `#define S(x) #x`. -/
def macroS : MacroTable := [("S", ⟨some ["x"], false, some "#x", is_wellformed "#x"⟩)]

/-- Registry of `#define CAT(a,b) a##b`. -/
def macroCAT : MacroTable :=
  [("CAT", ⟨some ["a", "b"], false, some "a##b", is_wellformed "a##b"⟩)]

/-- Registry of `#define W(x) #z` (stringize of a non-parameter). -/
def macroW : MacroTable := [("W", ⟨some ["x"], false, some "#z", is_wellformed "#z"⟩)]

/-- The macro `#define M(x) x)` whose body has an unbalanced bracket, with
the well-formedness flag left as a parameter. -/
def macroMdef (wf : Bool) : MacroDef := ⟨some ["x"], false, some "x)", wf⟩

/-- Registry containing only `M`. -/
def macroM (wf : Bool) : MacroTable := [("M", macroMdef wf)]

/-- The macro `#define F(a,b) a b`. -/
def macroFdef : MacroDef := ⟨some ["a", "b"], false, some "a b", is_wellformed "a b"⟩

/-- Registry containing only `F`. -/
def macroF : MacroTable := [("F", macroFdef)]

/-- Overwriting the `is_wellformed` flag of one macro. -/
def setWfDef (w : Bool) (md : MacroDef) : MacroDef := { md with is_wellformed := w }

/-- Overwriting the `is_wellformed` flag of every registered macro. -/
def setWf (w : Bool) (m : MacroTable) : MacroTable := m.map (fun p => (p.1, setWfDef w p.2))

/-! The codebase model (codebase.py), restricted to what the merge and
typedef claims need. -/

/-- `FunctionParts` (function.py lines 9-16), with token slices as plain
strings. -/
structure FunctionParts where
  typename : List String
  name : String
  args : String
  body : Option String
  preComment : Option String
  postComment : Option String
deriving DecidableEq

/-- The `Details` union (codebase.py line 10).  The merge claims involve
function sightings; `RecordParts` and `Variable` live in source files that
are not among the provided sources (record.py, variable.py), so only the
function alternative is modelled. -/
inductive Details where
  | func (f : FunctionParts)
deriving DecidableEq

/-- `Definition` (codebase.py lines 12-22).  `filePriority` stands for
`get_file_priority(self.scope.file.name)`; `get_file_priority` is in the
workspace module, which is not among the provided sources, so its value is
carried as a field.  WARNING diagnostics are not modelled. -/
structure Definition where
  name : String
  kind : String
  filePriority : Nat
  module : String
  is_private : Option Bool
  details : Option Details
  preComments : List String
  postComments : List String
deriving DecidableEq

/-- `Definition.get_priority` (codebase.py lines 30-34): 10 for a truthy
private flag, plus the per-file priority, plus 100 for function/record
details with a body. -/
def Definition.get_priority (d : Definition) : Nat :=
  (if d.is_private = some true then 10 else 0) + d.filePriority +
    (match d.details with
     | some (.func f) => if f.body.isSome then 100 else 0
     | none => 0)

/-- `FunctionParts.update` (function.py lines 21-35): `self` keeps its own
fields (the body is never copied from `other`), filling a missing pre/post
comment from `other`; mismatches only produce error strings, which are
used for WARNING diagnostics and are not modelled. -/
def FunctionParts.update (self other : FunctionParts) : FunctionParts :=
  { self with
    preComment := match self.preComment with | none => other.preComment | some c => some c
    postComment := match self.postComment with | none => other.postComment | some c => some c }

/-- The non-swapped body of `Definition.update` (codebase.py lines 42-65):
fold `other` into `self`: a truthy `is_private` on `other` makes `self`
private; details of matching type are merged by their own `update`;
comment lists are concatenated; kind and module are never overwritten
(mismatches only produce warnings). -/
def Definition.mergeInto (self other : Definition) : Definition :=
  { self with
    is_private := if other.is_private = some true then some true else self.is_private
    details :=
      match self.details, other.details with
      | some (.func f), some (.func g) => some (.func (f.update g))
      | d, _ => d
    preComments := self.preComments ++ other.preComments
    postComments := self.postComments ++ other.postComments }

/-- `Definition.update` (codebase.py lines 36-65), as the pair of
post-call object states `(self, other)`: when the priority check applies
and `other` outranks `self`, the call re-enters with the roles swapped, so
the merged state lands on the `other` object and `self` is returned
unchanged. -/
def Definition.update (self other : Definition) (check_riority : Bool) :
    Definition × Definition :=
  if check_riority = true ∧ self.get_priority < other.get_priority then
    (self, other.mergeInto self)
  else
    (self.mergeInto other, other)

/-- A symbol-table bucket (one of the `dict[str, Definition]` maps). -/
abbrev DefTable := List (String × Definition)

/-- Dictionary lookup. -/
def lookupD (d : DefTable) (k : String) : Option Definition := List.lookup k d

/-- In-place value replacement at a key. -/
def replaceD (d : DefTable) (k : String) (v : Definition) : DefTable :=
  d.map (fun p => if p.1 = k then (k, v) else p)

/-- `_dict_upsert_def` (codebase.py lines 68-72): for an existing name the
dict keeps its stored object, whose post-call state is the first component
of `Definition.update`; a new name is inserted. -/
def dict_upsert_def (d : DefTable) (other : Definition) : DefTable :=
  match lookupD d other.name with
  | some stored => replaceD d other.name (stored.update other true).1
  | none => d ++ [(other.name, other)]

/-- Body of a function Definition's details, if any. -/
def defnBody (d : Definition) : Option String :=
  match d.details with
  | some (.func f) => f.body
  | none => none

/-- A bodyless sighting of `void f(int);`. -/
def fDeclParts : FunctionParts := ⟨["void"], "f", "int", none, none, none⟩

/-- A body-bearing sighting of `void f(int x) ... `. -/
def fDefParts : FunctionParts := ⟨["void"], "f", "int x", some "...", none, none⟩

/-- The declaration sighting as a Definition. -/
def fDecl : Definition := ⟨"f", "function", 0, "m", none, some (.func fDeclParts), [], []⟩

/-- The body-bearing sighting as a Definition. -/
def fDef : Definition := ⟨"f", "function", 0, "m", none, some (.func fDefParts), [], []⟩

/-- A public body-bearing sighting of `f`. -/
def fPub : Definition := ⟨"f", "function", 0, "m", none, some (.func fDefParts), [], []⟩

/-- A private body-bearing sighting of `f`. -/
def fPriv : Definition :=
  ⟨"f", "function", 0, "m", some true, some (.func fDefParts), [], []⟩

/-! `Codebase.untypedef` (codebase.py lines 108-116). -/

/-- The parts of `Codebase` that `untypedef` reads: which names are
present in `types` and in `fields`, and the single-hop typedef map. -/
structure Codebase where
  typesKeys : List String
  fieldsKeys : List String
  typedefs : List (String × String)

/-- The return expression `name2 if name2 else name1 if name1 else name`
of `untypedef`: the fields-derived candidate is preferred, then the
types-derived one, then the final chain element. -/
def pickUntypedef (name1 name2 name : String) : String :=
  if name2 ≠ "" then name2 else if name1 ≠ "" then name1 else name

/-- The `while name in self.typedefs` loop of `untypedef`: while the
current name has a typedef entry, remember its target as `name1` if the
current name is a known type and as `name2` if it is a known field-bearing
type, then step to the target. -/
def untypedefF (cb : Codebase) : Nat → String → String → String → String
  | 0, name1, name2, name => pickUntypedef name1 name2 name
  | f + 1, name1, name2, name =>
    match List.lookup name cb.typedefs with
    | none => pickUntypedef name1 name2 name
    | some next =>
      untypedefF cb f (if cb.typesKeys.contains name then next else name1)
        (if cb.fieldsKeys.contains name then next else name2) next

/-- `Codebase.untypedef` (codebase.py lines 108-116).  The fuel
`typedefs.length + 1` covers every terminating run of the source loop (an
acyclic chain visits distinct keys); on a cyclic chain the source loop
does not terminate, and the model returns the current pick instead. -/
def Codebase.untypedef (cb : Codebase) (name : String) : String :=
  untypedefF cb (cb.typedefs.length + 1) "" "" name

/-- The preference order stated by the claim: record type first, then
field-bearing type, then the final target.  Written from the claim text,
for comparison with the source function. -/
def pickClaimOrder (name1 name2 name : String) : String :=
  if name1 ≠ "" then name1 else if name2 ≠ "" then name2 else name

/-- The untypedef walk with the claim's preference order. -/
def untypedefClaimF (cb : Codebase) : Nat → String → String → String → String
  | 0, name1, name2, name => pickClaimOrder name1 name2 name
  | f + 1, name1, name2, name =>
    match List.lookup name cb.typedefs with
    | none => pickClaimOrder name1 name2 name
    | some next =>
      untypedefClaimF cb f (if cb.typesKeys.contains name then next else name1)
        (if cb.fieldsKeys.contains name then next else name2) next

/-- `untypedef` as the claim describes it (record-type candidate
preferred). -/
def Codebase.untypedefClaimOrder (cb : Codebase) (name : String) : String :=
  untypedefClaimF cb (cb.typedefs.length + 1) "" "" name

/-- The codebase produced by `typedef struct foo BAR; typedef BAR BAZ;`
(the record `foo` is a known type with known fields). -/
def cbBAZ : Codebase := ⟨["foo"], ["foo"], [("BAR", "foo"), ("BAZ", "BAR")]⟩

/-- A codebase whose typedef chain passes through a known record type `B`
and later a known field-bearing type `C`, ending at the unknown `D`. -/
def cbPref : Codebase := ⟨["B"], ["C"], [("A", "B"), ("B", "C"), ("C", "D")]⟩

/-! `MacroParts.fromStatement` body normalization (macro.py lines 76-105,
common.py lines 20-24). -/

/-- `txt.replace("\\\n", " \n")` (macro.py line 101): leftmost
non-overlapping replacement of a backslash-newline pair by space-newline. -/
def replaceCont : List Char → List Char
  | [] => []
  | '\\' :: '\n' :: r => ' ' :: '\n' :: replaceCont r
  | c :: r => c :: replaceCont r

/-- Token kind test used by `clean_text_sz`: comment tokens (kind "/") and
preprocessor-directive tokens (kind "#"), judged from the leading
characters.  `getTokenKind` is in the `internal` module, which is not
among the provided sources; modelled from the spec, which says comments
and preprocessor directives are blanked. -/
def isBlankKind (v : List Char) : Bool :=
  match v with
  | '#' :: _ => true
  | '/' :: '/' :: _ => true
  | '/' :: '*' :: _ => true
  | _ => false

/-- `reg_cr.sub(" ", ...)` on one character: non-newline characters become
spaces, newlines stay, so line numbers and text size are preserved. -/
def blankChar (c : Char) : Char := if c = '\n' then '\n' else ' '

/-- `clean_text_sz` (common.py lines 20-24).  Modelled from the spec:
`reg_clean` (from the missing `internal` module) matches the tokens of the
plain token grammar; each matched comment or directive token has its
non-newline characters replaced by spaces, everything else (including
unmatched text, which `sub` keeps) is preserved verbatim. -/
def cleanTextSzF : Nat → List Char → List Char
  | 0, s => s
  | f + 1, s =>
    match s with
    | [] => []
    | c :: rest =>
      match matchTokLen false s with
      | some n =>
        (if isBlankKind (s.take n) then (s.take n).map blankChar else s.take n) ++
          cleanTextSzF f (s.drop n)
      | none => c :: cleanTextSzF f rest

/-- `clean_text_sz` at its standard fuel. -/
def clean_text_sz (s : List Char) : List Char := cleanTextSzF s.length s

/-- The normalization applied to the matched body text in
`MacroParts.fromStatement` (macro.py line 101):
`clean_text_sz(body.value.replace("\\\n", " \n").strip())`. -/
def normalizeMacroBody (b : List Char) : List Char :=
  clean_text_sz (pyStrip (replaceCont b))

/-- `reg_define` (macro.py line 11) as a deterministic parse:
`^\#define\s++(?P<name>\w++)\s*+(?P<args>\((?P<args_in>[^)]*+)\))?\s*+(?P<body>.*)$`.
`re_flags` is in the missing `internal` module; the token patterns require
DOTALL (`\\.` must match a line continuation), so the flag set includes it
and `.*$` reaches the end of the text.  Returns name, optional
argument-list inner text, and the body match. -/
def parseDefine (s : List Char) : Option (String × Option (List Char) × List Char) :=
  if ("#define".toList).isPrefixOf s then
    let r0 := s.drop 7
    let ws1 := r0.takeWhile isPySpace
    if ws1.isEmpty then none
    else
      let r1 := r0.drop ws1.length
      let nm := r1.takeWhile isWordChar
      if nm.isEmpty then none
      else
        let r2 := r1.drop nm.length
        let r3 := r2.drop (r2.takeWhile isPySpace).length
        match r3.head? with
        | some c =>
          if c = '(' then
            let inner := (r3.drop 1).takeWhile (fun d => d ≠ ')')
            match ((r3.drop 1).drop inner.length).head? with
            | some _ =>
              let r4 := (r3.drop 1).drop (inner.length + 1)
              some (String.mk nm, some inner,
                r4.drop (r4.takeWhile isPySpace).length)
            | none => some (String.mk nm, none, r3)
          else some (String.mk nm, none, r3)
        | none => some (String.mk nm, none, [])
  else none

/-- Statement-token kinds skipped by the loop of
`MacroParts.fromStatement` (whitespace and comments; the pre-comment
capture only affects the skipped comment token). -/
def isSkipKind (v : List Char) : Bool :=
  match v with
  | c :: d :: _ => (c = ' ' || c = '\t' || c = '\n') || (c = '/' && (d = '/' || d = '*'))
  | c :: [] => c = ' ' || c = '\t' || c = '\n'
  | [] => false

/-- The stored body of a parsed `#define`: the raw matched text (whose
span the body token's byte range covers) and the normalized value. -/
structure MacroBody where
  raw : List Char
  value : List Char
deriving DecidableEq

/-- `MacroParts.fromStatement` (macro.py lines 76-105), restricted to the
body: skip whitespace/comment tokens, match `reg_define` on the first
remaining token, normalize the matched body. -/
def macroBodyOfStatement : List String → Option MacroBody
  | [] => none
  | tok :: rest =>
    if isSkipKind tok.toList then macroBodyOfStatement rest
    else
      match parseDefine tok.toList with
      | some (_, _, bodyRaw) => some ⟨bodyRaw, normalizeMacroBody bodyRaw⟩
      | none => none

/-! Theorems: tokenizer bounds, the coverage-partition lemma, the
well-formedness-flag congruences, the claim theorems and their
witnesses. -/

/-! Bounds for the tokenizer: every token match consumes at least one and
at most all remaining characters. -/

theorem lineBodyLen_le (s : List Char) : lineBodyLen s ≤ s.length := by
  induction s using lineBodyLen.induct <;> simp_all [lineBodyLen] <;> omega

theorem blockBodyLen_le (s : List Char) : blockBodyLen s ≤ s.length := by
  induction s using blockBodyLen.induct <;> simp_all [blockBodyLen] <;> omega

theorem strBodyLen_le (q : Char) (s : List Char) : strBodyLen q s ≤ s.length := by
  induction s using strBodyLen.induct q <;> simp_all [strBodyLen] <;> omega

theorem drop_head?_some {s : List Char} {n : Nat} {c : Char}
    (h : (s.drop n).head? = some c) : n < s.length := by
  by_contra hn
  rw [List.drop_eq_nil_of_le (by omega)] at h
  simp at h

theorem lineCommentLen_bounds {s : List Char} {n : Nat}
    (h : lineCommentLen s = some n) : 1 ≤ n ∧ n ≤ s.length := by
  unfold lineCommentLen at h
  split at h
  · rename_i t
    split at h
    · rename_i c hc
      split at h
      · have h1 := drop_head?_some hc
        have h2 := lineBodyLen_le t
        simp at h h1 ⊢
        omega
      · simp at h
    · simp at h
  · simp at h

theorem directiveLen_bounds {s : List Char} {n : Nat}
    (h : directiveLen s = some n) : 1 ≤ n ∧ n ≤ s.length := by
  unfold directiveLen at h
  split at h
  · rename_i t
    split at h
    · rename_i c hc
      split at h
      · have h1 := drop_head?_some hc
        have h2 := lineBodyLen_le t
        simp at h h1 ⊢
        omega
      · simp at h
    · simp at h
  · simp at h

theorem blockCommentLen_bounds {s : List Char} {n : Nat}
    (h : blockCommentLen s = some n) : 1 ≤ n ∧ n ≤ s.length := by
  unfold blockCommentLen at h
  split at h
  · rename_i t
    split at h
    · rename_i r hr
      have h2 := blockBodyLen_le t
      have h3 : (t.drop (blockBodyLen t)).length = t.length - blockBodyLen t :=
        List.length_drop _ _
      rw [hr] at h3
      simp at h h3 ⊢
      omega
    · simp at h
  · simp at h

theorem strLitLen_bounds {s : List Char} {n : Nat}
    (h : strLitLen s = some n) : 1 ≤ n ∧ n ≤ s.length := by
  unfold strLitLen at h
  split at h
  · rename_i c t
    split at h
    · split at h
      · rename_i d hd
        split at h
        · have h1 := drop_head?_some hd
          have h2 := strBodyLen_le dqChar t
          simp at h h1 ⊢
          omega
        · simp at h
      · simp at h
    · simp at h
  · simp at h

theorem charLitLen_bounds {s : List Char} {n : Nat}
    (h : charLitLen s = some n) : 1 ≤ n ∧ n ≤ s.length := by
  unfold charLitLen at h
  split at h
  · rename_i c t
    split at h
    · split at h
      · rename_i d hd
        split at h
        · have h1 := drop_head?_some hd
          have h2 := strBodyLen_le sqChar t
          simp at h h1 ⊢
          omega
        · simp at h
      · simp at h
    · simp at h
  · simp at h

theorem opStrings_ne_empty (pp : Bool) : ∀ op ∈ opStrings pp, 1 ≤ op.length := by
  cases pp <;> decide

theorem opLen_bounds {pp : Bool} {s : List Char} {n : Nat}
    (h : opLen pp s = some n) : 1 ≤ n ∧ n ≤ s.length := by
  unfold opLen at h
  cases hf : (opStrings pp).find? (fun op => op.toList.isPrefixOf s) with
  | none => rw [hf] at h; simp at h
  | some op =>
    rw [hf] at h
    simp at h
    have hm := List.mem_of_find?_eq_some hf
    have hp := List.find?_some hf
    have hpre : op.toList <+: s := by
      simpa [List.isPrefixOf_iff_prefix] using hp
    have hlen := hpre.length_le
    have hop := opStrings_ne_empty pp op hm
    have hls : op.length = op.toList.length := rfl
    omega

theorem hspaceRunLen_bounds {s : List Char} {n : Nat}
    (h : hspaceRunLen s = some n) : 1 ≤ n ∧ n ≤ s.length := by
  unfold hspaceRunLen at h
  split at h
  · simp at h
  · rename_i hk
    have := (List.takeWhile_prefix (l := s) (p := isHSpaceChar)).length_le
    simp at h
    omega

theorem wordRunLen_bounds {s : List Char} {n : Nat}
    (h : wordRunLen s = some n) : 1 ≤ n ∧ n ≤ s.length := by
  unfold wordRunLen at h
  split at h
  · simp at h
  · rename_i hk
    have := (List.takeWhile_prefix (l := s) (p := isWordChar)).length_le
    simp at h
    omega

theorem backslashLen_bounds {s : List Char} {n : Nat}
    (h : backslashLen s = some n) : 1 ≤ n ∧ n ≤ s.length := by
  unfold backslashLen at h
  split at h
  · rename_i t
    simp at h
    simp [← h]
  · simp at h

theorem tokAlts_bounds {pp : Bool} {star : List Char → Nat} {s : List Char} {n : Nat}
    (h : tokAlts pp star s = some n) : 1 ≤ n ∧ n ≤ s.length := by
  unfold tokAlts at h
  split at h
  · rename_i hl; cases h; exact lineCommentLen_bounds hl
  split at h
  · rename_i hl
    cases h
    cases pp with
    | true => simp at hl
    | false => exact directiveLen_bounds hl
  split at h
  · rename_i hl; cases h; exact blockCommentLen_bounds hl
  split at h
  · rename_i hl; cases h; exact strLitLen_bounds hl
  split at h
  · rename_i hl; cases h; exact charLitLen_bounds hl
  split at h
  · simp at h
  split at h
  · split at h
    · rename_i d hd
      split at h
      · have h1 := drop_head?_some hd
        simp at h ⊢
        omega
      · simp at h
    · simp at h
  · split at h
    · cases h; simp
    · split at h
      · rename_i hl; cases h; exact hspaceRunLen_bounds hl
      split at h
      · rename_i hl; cases h; exact backslashLen_bounds hl
      split at h
      · rename_i hl; cases h; exact opLen_bounds hl
      · exact wordRunLen_bounds h

theorem tokLen_star_bounds (pp : Bool) :
    ∀ f : Nat, (∀ s n, tokLenF pp f s = some n → 1 ≤ n ∧ n ≤ s.length) ∧
      (∀ s, starLenF pp f s ≤ s.length)
  | 0 => by constructor <;> intro s <;> simp [tokLenF, starLenF]
  | f + 1 => by
    obtain ⟨ht, hs⟩ := tokLen_star_bounds pp f
    constructor
    · intro s n h
      exact tokAlts_bounds h
    · intro s
      simp only [starLenF]
      cases h : tokLenF pp f s with
      | none => simp
      | some n =>
        obtain ⟨h1, h2⟩ := ht s n h
        have h3 := hs (s.drop n)
        have h4 : (s.drop n).length = s.length - n := List.length_drop _ _
        simp only []
        split <;> omega

theorem matchTokLen_bounds {pp : Bool} {s : List Char} {n : Nat}
    (h : matchTokLen pp s = some n) : 1 ≤ n ∧ n ≤ s.length :=
  (tokLen_star_bounds pp (tokFuel s)).1 s n h

/-- If the scan of a text is gapless (the coverage predicate holds), then
the scanned tokens' ranges chain contiguously over the text and their
texts concatenate back to the text. -/
theorem cover_scan_partition (pp : Bool) :
    ∀ f pos s, s.length < f → coverF pp f s = true →
      spansChain pos (scanF pp f pos s) (pos + s.length) = true ∧
        catVals (scanF pp f pos s) = s := by
  intro f
  induction f with
  | zero => intro pos s h; omega
  | succ f ih =>
    intro pos s hlen hcov
    by_cases hs : s.isEmpty
    · have hnil : s = [] := by simpa [List.isEmpty_iff] using hs
      subst hnil
      simp [scanF, spansChain, catVals]
    · simp only [scanF, coverF, hs, if_neg, Bool.false_eq_true, not_false_eq_true,
        if_false] at hcov ⊢
      cases hm : matchTokLen pp s with
      | none => rw [hm] at hcov; simp at hcov
      | some n =>
        rw [hm] at hcov
        change coverF pp f (s.drop n) = true at hcov
        obtain ⟨h1, h2⟩ := matchTokLen_bounds hm
        have h4 : (s.drop n).length = s.length - n := List.length_drop _ _
        obtain ⟨ihc, ihv⟩ := ih (pos + n) (s.drop n) (by omega) hcov
        rw [h4] at ihc
        have h6 : pos + n + (s.length - n) = pos + s.length := by omega
        rw [h6] at ihc
        constructor
        · simp only [spansChain]
          have h5 : (s.take n).length = n := by
            rw [List.length_take]; omega
          have htk : (String.mk (s.take n)).toList = s.take n := rfl
          simp [htk, h5, ihc]
        · simp only [catVals]
          have htk : (String.mk (s.take n)).toList = s.take n := rfl
          rw [htk, ihv, List.take_append_drop]

/-- C1 (counterexample): the claim quantifies over every input text, but a
text consisting of a single double-quote character is matched by no token
alternative, so `TokenList.xFromText` produces no token at all and the
byte ranges do not partition the one-character input. -/
theorem c1_counterexample : ¬ tokensPartitionText (xFromText "\"") "\"" := by
  unfold tokensPartitionText
  decide

/-- C1 (amended): for every input text that the token grammar fully covers
(the scan finds a token at every position, with no residue), the token
sequence produced by `TokenList.xFromText` has byte ranges that exactly
partition the input: in order, adjacent, from 0 to the text length, and
concatenating the token texts reconstructs the input. -/
theorem c1_tokenizer_partition (txt : String) (h : reTokenCovers txt = true) :
    tokensPartitionText (xFromText txt) txt := by
  have h0 : coverF false (txt.toList.length + 1) txt.toList = true := h
  have hm := cover_scan_partition false (txt.toList.length + 1) 0 txt.toList (by omega) h0
  unfold tokensPartitionText xFromText
  simpa using hm

/-- C1 (witness): the amended theorem applied to a concrete covered text. -/
theorem c1_tokenizer_partition_witness :
    reTokenCovers "int x;" = true ∧ tokensPartitionText (xFromText "int x;") "int x;" :=
  ⟨by decide, c1_tokenizer_partition "int x;" (by decide)⟩

/-- A classified object-like match carries a registered object-like name
whose text is the maximal word at the scan position. -/
theorem classifyAt_obj_inv {m : MacroTable} {prev : Option Char} {s : List Char} {name : String}
    (h : classifyAt m prev s = ExStep.obj name) :
    (objNames m).contains name = true ∧ name.toList = s.takeWhile isWordChar := by
  simp only [classifyAt] at h
  split at h
  · simp at h
  · split at h
    · simp at h
    · split at h
      · split at h
        · split at h
          · rename_i hcont
            simp at h
            subst h
            exact ⟨hcont, rfl⟩
          · split at h
            · split at h <;> simp at h
            · simp at h
        · simp at h
      · simp at h

/-- A classified function-like match carries a registered function-like
name whose text is the maximal word at the scan position. -/
theorem classifyAt_func_inv {m : MacroTable} {prev : Option Char} {s : List Char}
    {name : String} {lst : List Char} {k : Nat}
    (h : classifyAt m prev s = ExStep.func name lst k) :
    (fnNames m).contains name = true ∧ name.toList = s.takeWhile isWordChar := by
  simp only [classifyAt] at h
  split at h
  · simp at h
  · split at h
    · simp at h
    · split at h
      · split at h
        · split at h
          · simp at h
          · split at h
            · split at h
              · simp at h
                obtain ⟨h1, h2, h3⟩ := h
                subst h1
                exact ⟨by assumption, rfl⟩
              · simp at h
            · simp at h
        · simp at h
      · simp at h

/-- A taken while-prefix followed by the drop of its length is the list. -/
theorem takeWhile_append_drop_length (p : Char → Bool) (l : List Char) :
    l.takeWhile p ++ l.drop (l.takeWhile p).length = l := by
  induction l with
  | nil => rfl
  | cons c t ih =>
    by_cases h : p c = true
    · simpa [List.takeWhile_cons, h] using ih
    · simp [List.takeWhile_cons, h]

/-- Expansion over the registry of `#define A A` is the identity on every
fragment, under every guard state: the only macro is self-referential, so
its one-token body re-expands to itself under the guard. -/
theorem expandF_macroA_id :
    ∀ (f : Nat) (inUse : List String) (prev : Option Char) (s : List Char),
      expandF macroA f inUse prev s = (s, []) := by
  intro f
  induction f with
  | zero => intro inUse prev s; rfl
  | succ f ih =>
    intro inUse prev s
    cases s with
    | nil => rfl
    | cons c cs =>
      simp only [expandF]
      cases hc : classifyAt macroA prev (c :: cs) with
      | copy k =>
        dsimp only []
        rw [ih]
        simp [List.take_append_drop]
      | obj name =>
        obtain ⟨hcont, hw⟩ := classifyAt_obj_inv hc
        have hname : name = "A" := by
          have hobj : objNames macroA = ["A"] := by decide
          rw [hobj] at hcont
          simpa using hcont
        subst hname
        dsimp only []
        have hpre : ("A" : String).toList ++ (c :: cs).drop ("A" : String).length = c :: cs := by
          have h1 : ("A" : String).length = (("A" : String).toList).length := rfl
          rw [h1, hw]
          exact takeWhile_append_drop_length isWordChar (c :: cs)
        have hpre2 : ('A' : Char) :: (c :: cs).drop ("A" : String).length = c :: cs := hpre
        rw [ih]
        by_cases hin : inUse.contains "A" = true
        · rw [if_pos hin]
          simp [hpre2]
        · rw [if_neg hin]
          have hlk : List.lookup "A" macroA =
              some ⟨none, false, some "A", is_wellformed "A"⟩ := by decide
          rw [hlk]
          dsimp only []
          rw [ih]
          simp [hpre2]
      | func name lst k =>
        obtain ⟨hcont, _⟩ := classifyAt_func_inv hc
        have hfn : fnNames macroA = [] := by decide
        rw [hfn] at hcont
        simp at hcont

/-- C2: an occurrence of a macro name that is already being expanded (its
name is in the in-use guard) is left untouched by the scan, scanning
continuing after it; with the single self-referential definition
`#define A A`, `Macros.expand` is the identity on every input text (so it
terminates, corrupts nothing and records no errors); and in particular
expanding `"x A y"` returns `"x A y"` unchanged. -/
theorem c2_self_reference :
    (∀ (m : MacroTable) (f : Nat) (inUse : List String) (prev : Option Char)
        (c : Char) (cs : List Char) (name : String),
      classifyAt m prev (c :: cs) = ExStep.obj name →
      inUse.contains name = true →
      expandF m (f + 1) inUse prev (c :: cs) =
        (name.toList ++ (expandF m f inUse (lastCharOf ((c :: cs).take name.length) prev)
            ((c :: cs).drop name.length)).1,
         (expandF m f inUse (lastCharOf ((c :: cs).take name.length) prev)
            ((c :: cs).drop name.length)).2)) ∧
    (∀ txt : String, Macros.expand macroA txt = (txt, [])) ∧
    Macros.expand macroA "x A y" = ("x A y", []) := by
  refine ⟨?_, ?_, by decide⟩
  · intro m f inUse prev c cs name h1 h2
    cases hp : expandF m f inUse (lastCharOf ((c :: cs).take name.length) prev)
        ((c :: cs).drop name.length) with
    | mk out errs =>
      simp [expandF, h1, h2, hp]
      intro hn
      exact absurd (by simpa using h2) hn
  · intro txt
    unfold Macros.expand
    rw [expandF_macroA_id]
    simp [macroA]

/-- C2 (witness): the guard lemma applied to the registry of `#define A A`
at the fragment `"A"` with `A` already in use. -/
theorem c2_self_reference_witness :
    expandF macroA 4 ["A"] none ['A'] =
      ("A".toList ++ (expandF macroA 3 ["A"] (lastCharOf (['A'].take "A".length) none)
          (['A'].drop "A".length)).1,
       (expandF macroA 3 ["A"] (lastCharOf (['A'].take "A".length) none)
          (['A'].drop "A".length)).2) :=
  c2_self_reference.1 macroA 3 ["A"] none 'A' [] "A" (by decide) (by decide)

/-- C3: the substitution pass treats the argument forms as claimed:
`ID(FOO)` expands the argument (`1`), `P(FOO)` stringizes the raw argument
(`"FOO"`), `S(a+b)` stringizes a multi-token raw argument (`"a+b"`),
`CAT(foo,bar)` pastes the raw texts (`foobar`), and stringizing a
non-parameter name yields `""`. -/
theorem c3_raw_vs_expanded :
    (Macros.expand macroID "ID(FOO)").1 = "1" ∧
    (Macros.expand macroP "P(FOO)").1 = "\"FOO\"" ∧
    (Macros.expand macroS "S(a+b)").1 = "\"a+b\"" ∧
    (Macros.expand macroCAT "CAT(foo,bar)").1 = "foobar" ∧
    (Macros.expand macroW "W(1)").1 = "\"\"" :=
  ⟨by decide, by decide, by decide, by decide, by decide⟩

/-- C4: a function-like invocation that parses to fewer arguments than the
declared parameter count is kept verbatim in the output (the matched call
text unchanged), an arity error is prepended to the errors of the rest of
the scan, and scanning continues after the invocation; concretely
`F(1) z` under `#define F(a,b) a b` comes back verbatim with exactly the
arity error recorded. -/
theorem c4_arity_error :
    (∀ (m : MacroTable) (f : Nat) (inUse : List String) (prev : Option Char)
        (c : Char) (cs : List Char) (name : String) (lst : List Char) (mlen : Nat)
        (md : MacroDef) (ps : List String) (b : String),
      classifyAt m prev (c :: cs) = ExStep.func name lst mlen →
      List.lookup name m = some md →
      inUse.contains name = false →
      md.args = some ps →
      md.body = some b →
      (splitMacroArgs ps.length md.is_va_args (tokenValues lst)).length < ps.length →
      expandF m (f + 1) inUse prev (c :: cs) =
        ((c :: cs).take mlen ++ (expandF m f inUse (lastCharOf ((c :: cs).take mlen) prev)
            ((c :: cs).drop mlen)).1,
         arityErr name (splitMacroArgs ps.length md.is_va_args (tokenValues lst)).length
             ps.length ::
           (expandF m f inUse (lastCharOf ((c :: cs).take mlen) prev)
             ((c :: cs).drop mlen)).2)) ∧
    Macros.expand macroF "F(1) z" =
      ("F(1) z", ["error: macro F: got only 1 arguments, expected 2"]) := by
  constructor
  · intro m f inUse prev c cs name lst mlen md ps b h1 h2 h3 h4 h5 h6
    cases hp : expandF m f inUse (lastCharOf ((c :: cs).take mlen) prev) ((c :: cs).drop mlen) with
    | mk out errs =>
      simp [expandF, h1, h2, h3, h4, h5, h6, hp]
      intro hmem
      simp [hmem] at h3
  · decide

/-- C4 (witness): the arity lemma applied to `#define F(a,b) a b` invoked
as `F(1)` at the head of the text `F(1) z`. -/
theorem c4_arity_error_witness :
    expandF macroF 21 [] none ('F' :: "(1) z".toList) =
      (('F' :: "(1) z".toList).take 4 ++
          (expandF macroF 20 [] (lastCharOf (('F' :: "(1) z".toList).take 4) none)
            (('F' :: "(1) z".toList).drop 4)).1,
       arityErr "F" (splitMacroArgs (["a", "b"] : List String).length macroFdef.is_va_args
             (tokenValues "1".toList)).length (["a", "b"] : List String).length ::
         (expandF macroF 20 [] (lastCharOf (('F' :: "(1) z".toList).take 4) none)
           (('F' :: "(1) z".toList).drop 4)).2) :=
  c4_arity_error.1 macroF 20 [] none 'F' "(1) z".toList "F" "1".toList 4 macroFdef
    ["a", "b"] "a b" (by decide) (by decide) (by decide) (by decide) (by decide) (by decide)

/-- C5 (counterexample): the body `x)` of `#define M(x) x)` does not
re-tokenize without residue (`is_wellformed` is false), yet expanding
`M(5)` substitutes the argument structurally and yields `5)`, not the
verbatim body text `x)` the claim promises. -/
theorem c5_counterexample :
    is_wellformed "x)" = false ∧
    (Macros.expand (macroM (is_wellformed "x)")) "M(5)").1 = "5)" ∧
    ("5)" : String) ≠ "x)" :=
  ⟨by decide, by decide, by decide⟩

theorem objNames_setWf (w : Bool) (m : MacroTable) : objNames (setWf w m) = objNames m := by
  induction m with
  | nil => rfl
  | cons p t ih =>
    simp only [setWf, List.map_cons, objNames, List.filter_cons] at *
    by_cases h : p.2.args.isNone
    · simp only [setWfDef, h, if_pos, List.map_cons]
      exact congrArg (List.cons p.1) ih
    · simp only [setWfDef, h]
      exact ih

theorem fnNames_setWf (w : Bool) (m : MacroTable) : fnNames (setWf w m) = fnNames m := by
  induction m with
  | nil => rfl
  | cons p t ih =>
    simp only [setWf, List.map_cons, fnNames, List.filter_cons] at *
    by_cases h : p.2.args.isSome
    · simp only [setWfDef, h, if_pos, List.map_cons]
      exact congrArg (List.cons p.1) ih
    · simp only [setWfDef, h]
      exact ih

theorem classifyAt_setWf (w : Bool) (m : MacroTable) (prev : Option Char) (s : List Char) :
    classifyAt (setWf w m) prev s = classifyAt m prev s := by
  simp only [classifyAt, objNames_setWf, fnNames_setWf]

theorem lookup_setWf (w : Bool) (m : MacroTable) (k : String) :
    List.lookup k (setWf w m) = (List.lookup k m).map (setWfDef w) := by
  induction m with
  | nil => rfl
  | cons p t ih =>
    by_cases h : k == p.1
    · simp [setWf, List.lookup, h]
    · simp only [setWf, List.map_cons, List.lookup, h]
      exact ih

/-- The fragment expander reads a macro's `args`, `is_va_args` and `body`
but never its `is_wellformed` flag: flipping the flag on every macro
changes nothing. -/
theorem expandF_setWf (w : Bool) (m : MacroTable) :
    ∀ (f : Nat) (inUse : List String) (prev : Option Char) (s : List Char),
      expandF (setWf w m) f inUse prev s = expandF m f inUse prev s := by
  intro f
  induction f with
  | zero => intro inUse prev s; rfl
  | succ f ih =>
    intro inUse prev s
    cases s with
    | nil => rfl
    | cons c cs =>
      simp only [expandF, classifyAt_setWf]
      cases hc : classifyAt m prev (c :: cs) with
      | copy k =>
        dsimp only []
        rw [ih]
      | obj name =>
        dsimp only []
        rw [ih, lookup_setWf]
        cases List.lookup name m with
        | none => rfl
        | some md =>
          dsimp only [Option.map, setWfDef]
          cases md.body with
          | none => rfl
          | some b =>
            dsimp only []
            rw [ih]
      | func name lst mlen =>
        dsimp only []
        rw [ih, lookup_setWf]
        cases List.lookup name m with
        | none => rfl
        | some md =>
          dsimp only [Option.map, setWfDef]
          cases md.body with
          | none => rfl
          | some b =>
            dsimp only []
            have hmap : (((md.args.getD []).zip (splitMacroArgs (md.args.getD []).length
                  md.is_va_args (tokenValues lst))).map (fun p => (p.1, rawOf p.2))).map
                    (fun p => (p.1, expandF (setWf w m) f inUse none p.2.toList)) =
                (((md.args.getD []).zip (splitMacroArgs (md.args.getD []).length
                  md.is_va_args (tokenValues lst))).map (fun p => (p.1, rawOf p.2))).map
                    (fun p => (p.1, expandF m f inUse none p.2.toList)) := by
              apply List.map_congr_left
              intro a _
              rw [ih]
            rw [hmap, ih]

theorem bodiesLen_setWf (w : Bool) (m : MacroTable) : bodiesLen (setWf w m) = bodiesLen m := by
  induction m with
  | nil => rfl
  | cons p t ih =>
    simp only [setWf, List.map_cons, bodiesLen, List.foldr_cons] at *
    rw [ih]
    rfl

theorem expand_setWf (w : Bool) (m : MacroTable) (txt : String) :
    Macros.expand (setWf w m) txt = Macros.expand m txt := by
  unfold Macros.expand
  have h1 : (setWf w m).isEmpty = m.isEmpty := by cases m <;> rfl
  have h2 : expandFuel (setWf w m) txt = expandFuel m txt := by
    unfold expandFuel
    rw [bodiesLen_setWf]
    simp [setWf]
  rw [h1, h2, expandF_setWf]

/-- C5 (amended): `is_wellformed` is computed at parse time (true exactly
when the body fully re-tokenizes with no residue), but the expander never
consults it: overwriting the flag on every macro of any registry leaves
`Macros.expand` unchanged on every input, and a macro with a malformed
body is still expanded structurally. -/
theorem c5_wellformed_flag_unused :
    (∀ (w : Bool) (m : MacroTable) (txt : String),
      Macros.expand (setWf w m) txt = Macros.expand m txt) ∧
    is_wellformed "x)" = false ∧ is_wellformed "x" = true ∧
    (∀ wf : Bool, (Macros.expand (macroM wf) "M(5)").1 = "5)") := by
  refine ⟨expand_setWf, by decide, by decide, ?_⟩
  intro wf
  cases wf
  · decide
  · decide

/-- C10: on an empty macro registry, `Macros.expand` returns the input
text unchanged (macro.py lines 135-136). -/
theorem c10_expand_empty_identity (txt : String) : Macros.expand [] txt = (txt, []) := rfl

/-- C6 (counterexample): upserting the bodyless declaration and then the
body-bearing definition leaves the stored, lower-priority object as the
table entry with its body still missing, even though `Definition.update`
computed the merged higher-priority state (with the body) on the incoming
object — the merged state does not survive in the table. -/
theorem c6_counterexample :
    (lookupD (dict_upsert_def (dict_upsert_def [] fDecl) fDef) "f").map defnBody =
      some none ∧
    defnBody ((fDecl.update fDef true).2) = some "..." ∧
    (none : Option String) ≠ some "..." := by
  refine ⟨by decide, by decide, by decide⟩

/-- C6 (amended): `Definition.update` folds the lower-priority side into
the higher-priority side, but `_dict_upsert_def` keeps the originally
stored object as the table entry, so the merged state survives only when
the stored side already has the higher (or equal) priority: the surviving
entry is the stored object when the incoming sighting outranks it, and the
fold of the incoming sighting into the stored one otherwise.  In the
body-bearing-first order the surviving entry does carry the populated
body. -/
theorem c6_upsert_keeps_stored :
    (∀ a b : Definition, b.name = a.name →
      lookupD (dict_upsert_def (dict_upsert_def [] a) b) a.name =
        some (if a.get_priority < b.get_priority then a else a.mergeInto b)) ∧
    lookupD (dict_upsert_def (dict_upsert_def [] fDef) fDecl) "f" =
      some (fDef.mergeInto fDecl) ∧
    defnBody (fDef.mergeInto fDecl) = some "..." := by
  refine ⟨?_, by decide, by decide⟩
  intro a b h
  simp [dict_upsert_def, lookupD, replaceD, Definition.update, h]
  split <;> rfl

/-- C6 (witness): the general upsert characterization applied to the
declaration-then-definition order, where the incoming definition outranks
the stored declaration and the surviving entry is the unchanged stored
declaration. -/
theorem c6_upsert_keeps_stored_witness :
    lookupD (dict_upsert_def (dict_upsert_def [] fDecl) fDef) fDecl.name =
      some (if fDecl.get_priority < fDef.get_priority then fDecl
            else fDecl.mergeInto fDef) :=
  c6_upsert_keeps_stored.1 fDecl fDef (by decide)

/-- C7: two sightings of `f`, the first public and the second private with
equal file priority: the private sighting outranks the stored public one,
`Definition.update` re-enters with swapped roles, the merged (private)
state lands on the discarded incoming object, and the table keeps the
public entry with `is_private` unset — while the reverse order does yield
a private entry.  This contradicts the claimed order-independent OR-merge
of the private flag. -/
theorem c7_visibility_or_merge_lost :
    (lookupD (dict_upsert_def (dict_upsert_def [] fPub) fPriv) "f").map
        Definition.is_private = some none ∧
    (lookupD (dict_upsert_def (dict_upsert_def [] fPriv) fPub) "f").map
        Definition.is_private = some (some true) := by
  refine ⟨by decide, by decide⟩

/-- C8 (counterexample): on a chain that meets a known record type before
a known field-bearing type, the code returns the fields-derived candidate
(`D`, the target remembered at the field-bearing element) while the
claim's preference order (record type first) gives `C`. -/
theorem c8_counterexample :
    Codebase.untypedef cbPref "A" = "D" ∧
    Codebase.untypedefClaimOrder cbPref "A" = "C" ∧
    ("D" : String) ≠ "C" := by
  refine ⟨by decide, by decide, by decide⟩

/-- C8 (amended): `untypedef` follows the typedef chain to a terminal
name, preferring the target remembered at a known field-bearing chain
element, then the target remembered at a known record-type element, then
the final chain element even if unknown; with `typedef struct foo BAR;
typedef BAR BAZ;` it resolves `BAZ` to `foo`. -/
theorem c8_untypedef_resolution :
    Codebase.untypedef cbBAZ "BAZ" = "foo" ∧
    Codebase.untypedef cbPref "A" = "D" := by
  refine ⟨by decide, by decide⟩

/-- Continuation collapsing preserves the text length. -/
theorem replaceCont_length (s : List Char) : (replaceCont s).length = s.length := by
  induction s using replaceCont.induct <;> simp_all [replaceCont]

/-- Comment/directive blanking preserves the text length (regardless of
the fuel). -/
theorem cleanTextSzF_length (f : Nat) : ∀ s, (cleanTextSzF f s).length = s.length := by
  induction f with
  | zero => intro s; rfl
  | succ f ih =>
    intro s
    cases s with
    | nil => rfl
    | cons c rest =>
      simp only [cleanTextSzF]
      cases hm : matchTokLen false (c :: rest) with
      | none => simp [ih]
      | some n =>
        have h1 := ih ((c :: rest).drop n)
        by_cases hb : isBlankKind ((c :: rest).take n) = true <;>
          simp [hb, h1, List.length_take, List.length_drop] <;> omega

/-- C9 (counterexample): the `#define` statement `"#define A 1 "` has body
match `"1 "` (two characters), but the stored normalized body text is
`"1"` (one character): the normalization, which begins with `.strip()`,
does not preserve the body text's length, so the stored body token's byte
range (spanning the raw match) overshoots the normalized text. -/
theorem c9_counterexample :
    (macroBodyOfStatement ["#define A 1 "]).map
        (fun mb => (mb.raw.length, mb.value.length)) = some (2, 1) ∧
    (2 : Nat) ≠ 1 := by
  refine ⟨by decide, by decide⟩

/-- C9 (amended): continuation collapsing and comment blanking each
preserve the text length; the one length change in the normalization is
the initial strip of surrounding whitespace, so whenever the matched body
carries no surrounding whitespace the normalized body has exactly the
length of the raw match and the stored byte range remains valid. -/
theorem c9_normalization_length (b : List Char)
    (h : pyStrip (replaceCont b) = replaceCont b) :
    (normalizeMacroBody b).length = b.length ∧
    (replaceCont b).length = b.length ∧
    (∀ s : List Char, (clean_text_sz s).length = s.length) := by
  refine ⟨?_, replaceCont_length b, fun s => cleanTextSzF_length s.length s⟩
  unfold normalizeMacroBody clean_text_sz
  rw [h, cleanTextSzF_length, replaceCont_length]

/-- C9 (witness): the amended theorem applied to a body with no
surrounding whitespace. -/
theorem c9_normalization_length_witness :
    (normalizeMacroBody "1+2".toList).length = "1+2".toList.length ∧
    (replaceCont "1+2".toList).length = "1+2".toList.length ∧
    (∀ s : List Char, (clean_text_sz s).length = s.length) :=
  c9_normalization_length "1+2".toList (by decide)

end Lcp

